import Mathlib

/-!
Verification of the tensor / neural-network core of the repository
(src/tensor.rs, src/loss.rs, src/linear.rs).

The 32-bit floats of the source are modelled exactly: a value is either a
finite rational or one of the IEEE special values inf, -inf, NaN.  The model
keeps the IEEE rules for the special values (0 * inf = NaN, inf - inf = NaN,
x / 0 with x > 0 = inf, 0 / 0 = NaN, NaN absorbing) but idealises finite
arithmetic as exact rational arithmetic: rounding and the negative zero are
not modelled.
-/

namespace NN

/-- Model of an f32 value: a finite rational or an IEEE special value. -/
inductive F where
  | fin (q : ℚ)
  | inf
  | ninf
  | nan
deriving DecidableEq, Repr

namespace F

/-- IEEE addition on the model (finite part exact). -/
def add : F → F → F
  | nan, _ => nan
  | _, nan => nan
  | inf, ninf => nan
  | ninf, inf => nan
  | inf, _ => inf
  | _, inf => inf
  | ninf, _ => ninf
  | _, ninf => ninf
  | fin a, fin b => fin (a + b)

/-- IEEE subtraction on the model (finite part exact). -/
def sub : F → F → F
  | nan, _ => nan
  | _, nan => nan
  | inf, inf => nan
  | ninf, ninf => nan
  | inf, _ => inf
  | ninf, _ => ninf
  | _, inf => ninf
  | _, ninf => inf
  | fin a, fin b => fin (a - b)

/-- IEEE multiplication on the model: 0 * (±inf) = NaN, NaN absorbing. -/
def mul : F → F → F
  | nan, _ => nan
  | _, nan => nan
  | inf, inf => inf
  | inf, ninf => ninf
  | ninf, inf => ninf
  | ninf, ninf => inf
  | inf, fin b => if 0 < b then inf else if b < 0 then ninf else nan
  | fin a, inf => if 0 < a then inf else if a < 0 then ninf else nan
  | ninf, fin b => if 0 < b then ninf else if b < 0 then inf else nan
  | fin a, ninf => if 0 < a then ninf else if a < 0 then inf else nan
  | fin a, fin b => fin (a * b)

/-- IEEE division on the model: x / 0 is ±inf for x ≠ 0 and NaN for 0 / 0
(the zero divisor is taken as +0; the negative zero is not modelled). -/
def div : F → F → F
  | nan, _ => nan
  | _, nan => nan
  | inf, inf => nan
  | inf, ninf => nan
  | ninf, inf => nan
  | ninf, ninf => nan
  | inf, fin b => if 0 ≤ b then inf else ninf
  | ninf, fin b => if 0 ≤ b then ninf else inf
  | fin _, inf => fin 0
  | fin _, ninf => fin 0
  | fin a, fin b =>
      if b = 0 then (if 0 < a then inf else if a < 0 then ninf else nan)
      else fin (a / b)

/-- Model of f32::abs. -/
def abs : F → F
  | nan => nan
  | inf => inf
  | ninf => inf
  | fin a => fin |a|

/-- Model of f32::powf restricted to natural exponents; the repository only
ever calls powf with the exponent 2.0 (in mse_loss).  IEEE pow(x, 0) = 1
even for NaN. -/
def powf : F → ℕ → F
  | _, 0 => fin 1
  | nan, _ + 1 => nan
  | inf, _ + 1 => inf
  | ninf, p + 1 => if (p + 1) % 2 = 0 then inf else ninf
  | fin a, p + 1 => fin (a ^ (p + 1))

/-- Model of the IEEE comparison x > 0.0 (false for NaN). -/
def gtZero : F → Bool
  | fin q => decide (0 < q)
  | inf => true
  | ninf => false
  | nan => false

/-- Model of the IEEE comparison x == 0.0 (false for NaN). -/
def beqZero : F → Bool
  | fin q => decide (q = 0)
  | _ => false

/-- True exactly on the finite values of the model. -/
def isFinite : F → Bool
  | fin _ => true
  | _ => false

end F

/-- Error type of src/tensor.rs. -/
inductive TensorError where
  | ShapeMismatch
  | InvalidRank
  | InconsistentData
deriving DecidableEq, Repr

/-- Tensor of src/tensor.rs: a flat row-major buffer and a shape. -/
structure Tensor where
  data : List F
  shape : List ℕ
deriving DecidableEq, Repr

namespace Tensor

/-- Tensor::new — validated constructor. -/
def new (data : List F) (shape : List ℕ) : Except TensorError Tensor :=
  if shape.length = 0 ∨ 2 < shape.length then .error .InvalidRank
  else if data.length ≠ shape.prod then .error .InconsistentData
  else .ok ⟨data, shape⟩

/-- Tensor::one — tensor filled with 1.0. -/
def one (shape : List ℕ) : Except TensorError Tensor :=
  if shape.length = 0 ∨ 2 < shape.length then .error .InvalidRank
  else .ok ⟨List.replicate shape.prod (F.fin 1), shape⟩

/-- Tensor::empty — the sentinel value with empty data and empty shape. -/
def empty : Tensor := ⟨[], []⟩

/-- Tensor::clone — a verbatim copy of the receiver. -/
def clone (t : Tensor) : Tensor := ⟨t.data, t.shape⟩

/-- Tensor::_element_wise_op — binary element-wise combinator: shape check,
then zip through op, then the validated constructor. -/
def _element_wise_op (a b : Tensor) (op : F → F → F) : Except TensorError Tensor :=
  if a.shape ≠ b.shape then .error .ShapeMismatch
  else Tensor.new (List.zipWith op a.data b.data) a.shape

/-- Tensor::_element_wise_op_single — unary element-wise combinator. -/
def _element_wise_op_single (a : Tensor) (op : F → F) : Except TensorError Tensor :=
  Tensor.new (a.data.map op) a.shape

/-- Tensor::add. -/
def add (a b : Tensor) : Except TensorError Tensor := a._element_wise_op b F.add

/-- Tensor::sub. -/
def sub (a b : Tensor) : Except TensorError Tensor := a._element_wise_op b F.sub

/-- Tensor::mul. -/
def mul (a b : Tensor) : Except TensorError Tensor := a._element_wise_op b F.mul

/-- Tensor::div. -/
def div (a b : Tensor) : Except TensorError Tensor := a._element_wise_op b F.div

/-- Tensor::abs. -/
def abs (a : Tensor) : Except TensorError Tensor := a._element_wise_op_single F.abs

/-- Tensor::powf (exponent modelled as a natural number, see F.powf). -/
def powf (a : Tensor) (p : ℕ) : Except TensorError Tensor :=
  a._element_wise_op_single (fun x => x.powf p)

/-- Tensor::scale — multiplies every element by the scalar (element on the
left, as in the source: a * scalar). -/
def scale (a : Tensor) (k : F) : Except TensorError Tensor :=
  a._element_wise_op_single (fun x => x.mul k)

/-- Tensor::relu. -/
def relu (a : Tensor) : Except TensorError Tensor :=
  a._element_wise_op_single (fun x => if x.gtZero then x else F.fin 0)

/-- Tensor::relu_prime. -/
def relu_prime (a : Tensor) : Except TensorError Tensor :=
  a._element_wise_op_single (fun x => if x.gtZero then F.fin 1 else F.fin 0)

/-- Tensor::transpose.  The source writes transposed_data[col*rows+row] =
data[row*cols+col] for every (row, col); position m = col*rows+row of the
output therefore holds data[(m % rows)*cols + m / rows]. -/
def transpose (t : Tensor) : Except TensorError Tensor :=
  match t.shape with
  | [_] => Tensor.new t.data t.shape
  | [r, c] =>
      Tensor.new
        ((List.range (c * r)).map fun m => t.data.getD ((m % r) * c + m / r) (F.fin 0))
        [c, r]
  | _ => .error .InvalidRank

end Tensor

/-- Dimension promotion of the left matmul operand: a 1-D tensor of length n
is treated as a [1, n] row. -/
def promoteLeft : List ℕ → Except TensorError (ℕ × ℕ)
  | [c] => .ok (1, c)
  | [r, c] => .ok (r, c)
  | _ => .error .InvalidRank

/-- Dimension promotion of the right matmul operand: a 1-D tensor of length n
is treated as an [n, 1] column. -/
def promoteRight : List ℕ → Except TensorError (ℕ × ℕ)
  | [r] => .ok (r, 1)
  | [r, c] => .ok (r, c)
  | _ => .error .InvalidRank

/-- Output-shape rule shared by both matmuls, keyed on the operand ranks. -/
def outShape (aLen bLen aRows bCols : ℕ) : List ℕ :=
  match aLen, bLen with
  | 1, 1 => [1]
  | 1, 2 => [bCols]
  | 2, 1 => [aRows]
  | _, _ => [aRows, bCols]

/-- Inner product of row i of A with column j of B, accumulated over k in
ascending order from 0.0, exactly as both matmul loops accumulate each
output element. -/
def matDot (A B : List F) (aCols bCols i j : ℕ) : F :=
  (List.range aCols).foldl
    (fun acc k =>
      acc.add ((A.getD (i * aCols + k) (F.fin 0)).mul (B.getD (k * bCols + j) (F.fin 0))))
    (F.fin 0)

/-- Same accumulation, but contributions whose a[i][k] compares equal to 0.0
are skipped — the zero short-circuit of the optimized matmul (aik in the
source names A.getD (i * aCols + k)). -/
def matDotSkip (A B : List F) (aCols bCols i j : ℕ) : F :=
  (List.range aCols).foldl
    (fun acc k =>
      if (A.getD (i * aCols + k) (F.fin 0)).beqZero then acc
      else acc.add ((A.getD (i * aCols + k) (F.fin 0)).mul
        (B.getD (k * bCols + j) (F.fin 0))))
    (F.fin 0)

namespace Tensor

/-- Tensor::matmul_naive — textbook (i, j, k) triple loop; the loop writes
output position i*b_cols+j once, accumulating over k ascending, so position
m holds the inner product for row m / b_cols and column m % b_cols.  The
result goes through the validated constructor. -/
def matmul_naive (a b : Tensor) : Except TensorError Tensor := do
  let (aRows, aCols) ← promoteLeft a.shape
  let (bRows, bCols) ← promoteRight b.shape
  if aCols ≠ bRows then .error .ShapeMismatch
  else
    Tensor.new
      ((List.range (aRows * bCols)).map fun m =>
        matDot a.data b.data aCols bCols (m / bCols) (m % bCols))
      (outShape a.shape.length b.shape.length aRows bCols)

/-- Tensor::matmul — (i, k, j) loop order with the zero-skip; per output
element the contributions still arrive in ascending k order, minus the
skipped zero rows of a.  The result tensor is constructed directly, without
the validated constructor.  (When the inner dimension is 0 the Rust code
panics in chunks_exact(0); the claims below only use this model with a
positive inner dimension.) -/
def matmul (a b : Tensor) : Except TensorError Tensor := do
  let (aRows, aCols) ← promoteLeft a.shape
  let (bRows, bCols) ← promoteRight b.shape
  if aCols ≠ bRows then .error .ShapeMismatch
  else
    .ok ⟨(List.range (aRows * bCols)).map fun m =>
          matDotSkip a.data b.data aCols bCols (m / bCols) (m % bCols),
        outShape a.shape.length b.shape.length aRows bCols⟩

/-- Body of the axis=None branch of Tensor::sum: iter().sum() is a left fold
from 0.0 in buffer order, wrapped as a [1]-shaped tensor. -/
def sumAll (t : Tensor) : Except TensorError Tensor :=
  Tensor.new [t.data.foldl F.add (F.fin 0)] [1]

/-- Tensor::sum with an optional axis.  Axis 0 produces column sums (each
accumulating over the rows in ascending order), axis 1 row sums; on a tensor
of rank below 2 both degenerate to the global sum. -/
def sum (t : Tensor) (axis : Option ℕ) : Except TensorError Tensor :=
  match axis with
  | none => t.sumAll
  | some 0 =>
      if t.shape.length < 2 then t.sumAll
      else
        let rows := t.shape.getD 0 0
        let cols := t.shape.getD 1 0
        Tensor.new
          ((List.range cols).map fun c =>
            (List.range rows).foldl
              (fun acc r => acc.add (t.data.getD (r * cols + c) (F.fin 0))) (F.fin 0))
          [cols]
  | some 1 =>
      if t.shape.length < 2 then t.sumAll
      else
        let rows := t.shape.getD 0 0
        let cols := t.shape.getD 1 0
        Tensor.new
          ((List.range rows).map fun r =>
            (List.range cols).foldl
              (fun acc c => acc.add (t.data.getD (r * cols + c) (F.fin 0))) (F.fin 0))
          [rows]
  | some _ => .error .InvalidRank

end Tensor

/-- Linear layer of src/linear.rs: a weight tensor and the cached last input. -/
structure Linear where
  weight : Tensor
  input : Tensor
deriving DecidableEq, Repr

/-- Linear::backward: input_error = output_error ⋅ weightᵗ from the current
(pre-update) weight; then weight ← weight - learning_rate * (inputᵗ ⋅
output_error); the cached input is left unchanged.  Mutation of self.weight
is modelled by returning the updated layer next to the input error. -/
def Linear.backward (l : Linear) (outputError : Tensor) (learningRate : F) :
    Except TensorError (Tensor × Linear) := do
  let weightT ← l.weight.transpose
  let inputError ← outputError.matmul weightT
  let inputT ← l.input.transpose
  let weightsGrad ← inputT.matmul outputError
  let weightStep ← weightsGrad.scale learningRate
  let weight2 ← l.weight.sub weightStep
  pure (inputError, ⟨weight2, l.input⟩)

/-- l1_loss of src/loss.rs: mean absolute difference, divided by the total
element count (the scalar 1.0/n is formed first, in f32, then multiplied). -/
def l1_loss (predicted actual : Tensor) : Except TensorError Tensor := do
  if predicted.shape ≠ actual.shape then .error .ShapeMismatch
  else
    let n : ℚ := (predicted.shape.prod : ℚ)
    let diff ← (predicted.sub actual) >>= Tensor.abs
    (diff.sum none) >>= fun s => s.scale ((F.fin 1).div (F.fin n))

/-- mse_loss of src/loss.rs: mean squared difference, divided by the total
element count. -/
def mse_loss (predicted actual : Tensor) : Except TensorError Tensor := do
  if predicted.shape ≠ actual.shape then .error .ShapeMismatch
  else
    let n : ℚ := (predicted.shape.prod : ℚ)
    let sq ← (predicted.sub actual) >>= fun d => d.powf 2
    (sq.sum none) >>= fun s => s.scale ((F.fin 1).div (F.fin n))

/-- mse_loss_gradient of src/loss.rs: (2 / shape[0]) * (predicted - actual).
There is no shape-equality guard here, and the divisor is the FIRST shape
dimension, not the element count.  The source indexes predicted.shape()[0]
(which requires rank ≥ 1); the model reads it with headD. -/
def mse_loss_gradient (predicted actual : Tensor) : Except TensorError Tensor := do
  let diff ← predicted.sub actual
  let n : ℚ := ((predicted.shape.headD 0 : ℕ) : ℚ)
  diff.scale ((F.fin 2).div (F.fin n))

/-- Well-formedness invariant of the spec: rank 1 or 2, and the buffer length
matches the shape product. -/
def inv (t : Tensor) : Prop :=
  (t.shape.length = 1 ∨ t.shape.length = 2) ∧ t.data.length = t.shape.prod

instance (t : Tensor) : Decidable (inv t) := by
  unfold inv; infer_instance

/-! Algebraic facts about the float model.  Addition on F is commutative,
associative, and has fin 0 as identity: without rounding, reassociation of
sums is sound even in the presence of the special values (inf + -inf = NaN
symmetrically, NaN absorbing at every stage). -/

theorem F.add_comm' (x y : F) : x.add y = y.add x := by
  cases x <;> cases y <;> simp [F.add] <;> ring

theorem F.add_assoc' (x y z : F) : (x.add y).add z = x.add (y.add z) := by
  cases x <;> cases y <;> cases z <;> simp [F.add] <;> ring

theorem F.zero_add' (x : F) : (F.fin 0).add x = x := by
  cases x <;> simp [F.add]

theorem F.add_zero' (x : F) : x.add (F.fin 0) = x := by
  cases x <;> simp [F.add]

instance : Add F := ⟨F.add⟩

instance : Zero F := ⟨F.fin 0⟩

instance : AddCommMonoid F where
  add_assoc := F.add_assoc'
  zero_add := F.zero_add'
  add_zero := F.add_zero'
  add_comm := F.add_comm'
  nsmul := nsmulRec
  nsmul_zero := fun _ => rfl
  nsmul_succ := fun _ _ => rfl

theorem F.add_eq (x y : F) : x.add y = x + y := rfl

theorem F.zero_eq : (0 : F) = F.fin 0 := rfl

theorem F.isFinite_add {x y : F} (hx : x.isFinite) (hy : y.isFinite) :
    (x.add y).isFinite := by
  cases x <;> cases y <;> simp_all [F.isFinite, F.add]

theorem F.isFinite_mul {x y : F} (hx : x.isFinite) (hy : y.isFinite) :
    (x.mul y).isFinite := by
  cases x <;> cases y <;> simp_all [F.isFinite, F.mul]

theorem F.beqZero_eq_true {x : F} (h : x.beqZero = true) : x = F.fin 0 := by
  cases x <;> simp_all [F.beqZero]

theorem F.zero_mul' {y : F} (hy : y.isFinite) : (F.fin 0).mul y = F.fin 0 := by
  cases y <;> simp_all [F.isFinite, F.mul]

/-! List-level helpers: reading buffers, and converting the left folds of the
source loops into Finset sums so they can be reassociated. -/

theorem getD_isFinite {A : List F} (hA : ∀ x ∈ A, x.isFinite = true) (n : ℕ) :
    (A.getD n (F.fin 0)).isFinite = true := by
  by_cases h : n < A.length
  · rw [List.getD_eq_getElem A _ h]
    exact hA _ (List.getElem_mem h)
  · rw [List.getD_eq_default A _ (Nat.le_of_not_lt h)]
    rfl

theorem foldl_add_eq_sum (l : List F) (a : F) : l.foldl F.add a = a + l.sum := by
  induction l generalizing a with
  | nil => simp [List.foldl]
  | cons x xs ih =>
      simp only [List.foldl, List.sum_cons, ih, F.add_eq]
      rw [← add_assoc]

/-! Success and invariant lemmas for the tensor operations. -/

theorem new_ok_of {d : List F} {s : List ℕ}
    (h1 : s.length = 1 ∨ s.length = 2) (h2 : d.length = s.prod) :
    Tensor.new d s = .ok ⟨d, s⟩ := by
  unfold Tensor.new
  rcases h1 with h1 | h1 <;> simp [h1, h2]

theorem new_ok_inv {d : List F} {s : List ℕ} {t : Tensor}
    (h : Tensor.new d s = .ok t) : t = ⟨d, s⟩ ∧ inv t := by
  unfold Tensor.new at h
  split at h
  · exact absurd h (by simp)
  · split at h
    · exact absurd h (by simp)
    · cases h
      exact ⟨rfl, by show (s.length = 1 ∨ s.length = 2) ∧ d.length = s.prod; omega⟩

theorem promoteLeft_ok_cases {s : List ℕ} {ar ac : ℕ}
    (h : promoteLeft s = .ok (ar, ac)) : (s = [ac] ∧ ar = 1) ∨ s = [ar, ac] := by
  match s with
  | [] => exact absurd h (by simp [promoteLeft])
  | [c] => simp [promoteLeft] at h; simp [h.1, h.2]
  | [r, c] => simp [promoteLeft] at h; simp [h.1, h.2]
  | _ :: _ :: _ :: _ => exact absurd h (by simp [promoteLeft])

theorem promoteRight_ok_cases {s : List ℕ} {br bc : ℕ}
    (h : promoteRight s = .ok (br, bc)) : (s = [br] ∧ bc = 1) ∨ s = [br, bc] := by
  match s with
  | [] => exact absurd h (by simp [promoteRight])
  | [r] => simp [promoteRight] at h; simp [h.1, h.2]
  | [r, c] => simp [promoteRight] at h; simp [h.1, h.2]
  | _ :: _ :: _ :: _ => exact absurd h (by simp [promoteRight])

theorem outShape_spec {s1 s2 : List ℕ} {ar ac br bc : ℕ}
    (hL : promoteLeft s1 = .ok (ar, ac)) (hR : promoteRight s2 = .ok (br, bc)) :
    ((outShape s1.length s2.length ar bc).length = 1 ∨
      (outShape s1.length s2.length ar bc).length = 2) ∧
    (outShape s1.length s2.length ar bc).prod = ar * bc := by
  rcases promoteLeft_ok_cases hL with ⟨h1, h2⟩ | h1 <;>
    rcases promoteRight_ok_cases hR with ⟨h3, h4⟩ | h3 <;>
      subst_vars <;> simp [outShape]

theorem except_bind_ok {ε α β : Type} (a : α) (f : α → Except ε β) :
    (Except.ok a : Except ε α) >>= f = f a := rfl

theorem matmul_naive_ok {a b : Tensor} {ar ac br bc : ℕ}
    (hL : promoteLeft a.shape = .ok (ar, ac))
    (hR : promoteRight b.shape = .ok (br, bc)) (hin : ac = br) :
    a.matmul_naive b =
      .ok ⟨(List.range (ar * bc)).map fun m =>
             matDot a.data b.data ac bc (m / bc) (m % bc),
           outShape a.shape.length b.shape.length ar bc⟩ := by
  obtain ⟨hlen, hprod⟩ := outShape_spec hL hR
  subst hin
  unfold Tensor.matmul_naive
  rw [hL, hR]
  simp only [except_bind_ok, ne_eq, not_true_eq_false, if_false, ite_false,
    if_neg (fun h : ¬ ac = ac => h rfl)]
  exact new_ok_of hlen (by simp [hprod])

theorem matmul_ok {a b : Tensor} {ar ac br bc : ℕ}
    (hL : promoteLeft a.shape = .ok (ar, ac))
    (hR : promoteRight b.shape = .ok (br, bc)) (hin : ac = br) :
    a.matmul b =
      .ok ⟨(List.range (ar * bc)).map fun m =>
             matDotSkip a.data b.data ac bc (m / bc) (m % bc),
           outShape a.shape.length b.shape.length ar bc⟩ := by
  subst hin
  unfold Tensor.matmul
  rw [hL, hR]
  simp only [except_bind_ok]
  rw [if_neg (fun h : ¬ ac = ac => h rfl)]

theorem except_bind_error {ε α β : Type} (e : ε) (f : α → Except ε β) :
    (Except.error e : Except ε α) >>= f = .error e := rfl

theorem _element_wise_op_mismatch {a b : Tensor} (op : F → F → F)
    (h : a.shape ≠ b.shape) :
    a._element_wise_op b op = .error .ShapeMismatch := by
  unfold Tensor._element_wise_op
  rw [if_pos h]

theorem _element_wise_op_ok {a b : Tensor} (op : F → F → F)
    (hsh : a.shape = b.shape) (ha : inv a) (hb : inv b) :
    a._element_wise_op b op = .ok ⟨List.zipWith op a.data b.data, a.shape⟩ := by
  unfold Tensor._element_wise_op
  rw [if_neg (by simp [hsh])]
  exact new_ok_of ha.1 (by rw [List.length_zipWith, ha.2, hb.2, hsh]; exact min_self _)

theorem _element_wise_op_single_ok {a : Tensor} (op : F → F) (ha : inv a) :
    a._element_wise_op_single op = .ok ⟨a.data.map op, a.shape⟩ := by
  unfold Tensor._element_wise_op_single
  exact new_ok_of ha.1 (by rw [List.length_map, ha.2])

theorem transpose_ok1 {t : Tensor} {n : ℕ} (ht : t.shape = [n])
    (hd : t.data.length = n) : t.transpose = .ok t := by
  obtain ⟨d, s⟩ := t
  simp only at ht hd
  subst ht
  show Tensor.new d [n] = .ok ⟨d, [n]⟩
  exact new_ok_of (Or.inl rfl) (by simpa using hd)

theorem transpose_ok2 {t : Tensor} {r c : ℕ} (ht : t.shape = [r, c]) :
    t.transpose =
      .ok ⟨(List.range (c * r)).map fun m =>
             t.data.getD ((m % r) * c + m / r) (F.fin 0), [c, r]⟩ := by
  obtain ⟨d, s⟩ := t
  simp only at ht
  subst ht
  show Tensor.new _ [c, r] = _
  exact new_ok_of (Or.inr rfl) (by simp)

theorem transpose_inv {t y : Tensor} (h : t.transpose = .ok y) : inv y := by
  unfold Tensor.transpose at h
  split at h
  · exact (new_ok_inv h).2
  · exact (new_ok_inv h).2
  · exact absurd h (by simp)

theorem one_inv {s : List ℕ} {y : Tensor} (h : Tensor.one s = .ok y) : inv y := by
  unfold Tensor.one at h
  split at h
  · exact absurd h (by simp)
  · cases h
    exact ⟨by show s.length = 1 ∨ s.length = 2; omega, by simp⟩

theorem _element_wise_op_inv {a b : Tensor} {op : F → F → F} {y : Tensor}
    (h : a._element_wise_op b op = .ok y) : inv y := by
  unfold Tensor._element_wise_op at h
  split at h
  · exact absurd h (by simp)
  · exact (new_ok_inv h).2

theorem _element_wise_op_single_inv {a : Tensor} {op : F → F} {y : Tensor}
    (h : a._element_wise_op_single op = .ok y) : inv y :=
  (new_ok_inv h).2

theorem matmul_naive_inv {a b y : Tensor} (h : a.matmul_naive b = .ok y) :
    inv y := by
  unfold Tensor.matmul_naive at h
  rcases hL : promoteLeft a.shape with e | ⟨ar, ac⟩
  · rw [hL] at h
    simp only [except_bind_error] at h
    exact Except.noConfusion h
  · rw [hL] at h
    simp only [except_bind_ok] at h
    rcases hR : promoteRight b.shape with e | ⟨br, bc⟩
    · rw [hR] at h
      simp only [except_bind_error] at h
      exact Except.noConfusion h
    · rw [hR] at h
      simp only [except_bind_ok] at h
      split at h
      · exact Except.noConfusion h
      · exact (new_ok_inv h).2

theorem matmul_inv {a b y : Tensor} (h : a.matmul b = .ok y) : inv y := by
  unfold Tensor.matmul at h
  rcases hL : promoteLeft a.shape with e | ⟨ar, ac⟩
  · rw [hL] at h
    simp only [except_bind_error] at h
    exact Except.noConfusion h
  · rw [hL] at h
    simp only [except_bind_ok] at h
    rcases hR : promoteRight b.shape with e | ⟨br, bc⟩
    · rw [hR] at h
      simp only [except_bind_error] at h
      exact Except.noConfusion h
    · rw [hR] at h
      simp only [except_bind_ok] at h
      split at h
      · exact Except.noConfusion h
      · cases h
        obtain ⟨hlen, hprod⟩ := outShape_spec hL hR
        exact ⟨hlen, by simp [hprod]⟩

theorem promoteLeft_error {s : List ℕ} {e : TensorError}
    (h : promoteLeft s = .error e) : e = .InvalidRank := by
  match s with
  | [] => exact (Except.error.inj h).symm
  | [c] => exact absurd h (by simp [promoteLeft])
  | [r, c] => exact absurd h (by simp [promoteLeft])
  | _ :: _ :: _ :: _ => exact (Except.error.inj h).symm

theorem matmul_right_empty (t : Tensor) :
    t.matmul Tensor.empty = .error .InvalidRank := by
  unfold Tensor.matmul
  rcases hL : promoteLeft t.shape with e | ⟨ar, ac⟩
  · simp only [except_bind_error]
    rw [promoteLeft_error hL]
  · rfl

theorem matmul_naive_right_empty (t : Tensor) :
    t.matmul_naive Tensor.empty = .error .InvalidRank := by
  unfold Tensor.matmul_naive
  rcases hL : promoteLeft t.shape with e | ⟨ar, ac⟩
  · simp only [except_bind_error]
    rw [promoteLeft_error hL]
  · rfl

theorem sum_inv {t y : Tensor} {ax : Option ℕ} (h : t.sum ax = .ok y) : inv y := by
  unfold Tensor.sum Tensor.sumAll at h
  split at h
  · exact (new_ok_inv h).2
  · split at h
    · exact (new_ok_inv h).2
    · exact (new_ok_inv h).2
  · split at h
    · exact (new_ok_inv h).2
    · exact (new_ok_inv h).2
  · exact Except.noConfusion h

/-! Claim C4 — behaviour of the validated constructor. -/

/-- C4: Tensor::new fails with InvalidRank when the shape rank is 0 or above
2, fails with InconsistentData when the data length does not match the shape
product, and otherwise succeeds with a tensor that round-trips the input
data and shape. -/
theorem C4_tensor_new_spec (d : List F) (s : List ℕ) :
    (s.length = 0 ∨ 2 < s.length → Tensor.new d s = .error .InvalidRank) ∧
    (¬(s.length = 0 ∨ 2 < s.length) → d.length ≠ s.prod →
      Tensor.new d s = .error .InconsistentData) ∧
    (¬(s.length = 0 ∨ 2 < s.length) → d.length = s.prod →
      ∃ t, Tensor.new d s = .ok t ∧ t.data = d ∧ t.shape = s) := by
  refine ⟨fun h => ?_, fun h1 h2 => ?_, fun h1 h2 => ?_⟩
  · unfold Tensor.new
    rw [if_pos h]
  · unfold Tensor.new
    rw [if_neg h1, if_pos h2]
  · exact ⟨⟨d, s⟩, new_ok_of (by omega) h2, rfl, rfl⟩

/-- C4 witness: the three branches at concrete inputs. -/
theorem C4_tensor_new_spec_witness :
    (∃ t, Tensor.new [F.fin 1, F.fin 2] [2] = .ok t ∧
      t.data = [F.fin 1, F.fin 2] ∧ t.shape = [2]) ∧
    Tensor.new [F.fin 1] [2, 2] = .error .InconsistentData ∧
    Tensor.new [F.fin 1] [1, 1, 1] = .error .InvalidRank :=
  ⟨(C4_tensor_new_spec [F.fin 1, F.fin 2] [2]).2.2 (by decide) (by decide),
   (C4_tensor_new_spec [F.fin 1] [2, 2]).2.1 (by decide) (by decide),
   (C4_tensor_new_spec [F.fin 1] [1, 1, 1]).1 (by decide)⟩

/-! Claim C5 — element-wise binary operations. -/

/-- C5: add, sub, mul, div fail with ShapeMismatch unless the operand shapes
are identical (no broadcasting); on identical shapes (of well-formed
operands) each returns a tensor of the same shape whose elements are the
plain IEEE results of the operation, F.div producing inf and NaN on division
by zero as exhibited by the last conjunct. -/
theorem C5_element_wise_binops (a b : Tensor) :
    (a.shape ≠ b.shape →
      a.add b = .error .ShapeMismatch ∧ a.sub b = .error .ShapeMismatch ∧
      a.mul b = .error .ShapeMismatch ∧ a.div b = .error .ShapeMismatch) ∧
    (a.shape = b.shape → inv a → inv b →
      a.add b = .ok ⟨List.zipWith F.add a.data b.data, a.shape⟩ ∧
      a.sub b = .ok ⟨List.zipWith F.sub a.data b.data, a.shape⟩ ∧
      a.mul b = .ok ⟨List.zipWith F.mul a.data b.data, a.shape⟩ ∧
      a.div b = .ok ⟨List.zipWith F.div a.data b.data, a.shape⟩) ∧
    Tensor.div ⟨[F.fin 1, F.fin 0, F.fin (-1)], [3]⟩ ⟨[F.fin 0, F.fin 0, F.fin 0], [3]⟩ =
      .ok ⟨[F.inf, F.nan, F.ninf], [3]⟩ := by
  refine ⟨fun h => ⟨?_, ?_, ?_, ?_⟩, fun hsh ha hb => ⟨?_, ?_, ?_, ?_⟩, by rfl⟩
  all_goals first
    | exact _element_wise_op_mismatch _ h
    | exact _element_wise_op_ok _ hsh ha hb

/-- C5 witness: both branches at concrete inputs. -/
theorem C5_element_wise_binops_witness :
    ((⟨[F.inf], [1]⟩ : Tensor).add ⟨[F.inf, F.inf], [2]⟩ = .error .ShapeMismatch) ∧
    ((⟨[F.inf], [1]⟩ : Tensor).add ⟨[F.nan], [1]⟩ =
      .ok ⟨List.zipWith F.add [F.inf] [F.nan], [1]⟩) :=
  ⟨((C5_element_wise_binops ⟨[F.inf], [1]⟩ ⟨[F.inf, F.inf], [2]⟩).1 (by decide)).1,
   ((C5_element_wise_binops ⟨[F.inf], [1]⟩ ⟨[F.nan], [1]⟩).2.1 rfl
     (by decide) (by decide)).1⟩

/-! Claim C6 — every tensor-returning operation except empty() and clone()
establishes the well-formedness invariant.  OpCall enumerates those public
operations; the binary and unary constructors carry the element function, so
they cover add/sub/mul/div and abs/powf/scale/relu/relu_prime/exp at once. -/

/-- One call to a tensor-producing public operation of src/tensor.rs. -/
inductive OpCall where
  | newT (d : List F) (s : List ℕ)
  | oneT (s : List ℕ)
  | binary (a b : Tensor) (g : F → F → F)
  | unary (a : Tensor) (f : F → F)
  | transposeT (a : Tensor)
  | matmulNaiveT (a b : Tensor)
  | matmulT (a b : Tensor)
  | sumT (a : Tensor) (axis : Option ℕ)

/-- Dispatch of an OpCall to the modelled operation. -/
def OpCall.run : OpCall → Except TensorError Tensor
  | .newT d s => Tensor.new d s
  | .oneT s => Tensor.one s
  | .binary a b g => a._element_wise_op b g
  | .unary a f => a._element_wise_op_single f
  | .transposeT a => a.transpose
  | .matmulNaiveT a b => a.matmul_naive b
  | .matmulT a b => a.matmul b
  | .sumT a axis => a.sum axis

/-- C6 (amended): every Tensor returned successfully by a public operation
other than empty() and clone() satisfies shape rank 1 or 2 and data length
equal to the shape product — including matmul, which builds its result
without the validated constructor. -/
theorem C6_op_result_invariant (c : OpCall) (t : Tensor)
    (h : c.run = .ok t) : inv t := by
  cases c with
  | newT d s => exact (new_ok_inv h).2
  | oneT s => exact one_inv h
  | binary a b g => exact _element_wise_op_inv h
  | unary a f => exact _element_wise_op_single_inv h
  | transposeT a => exact transpose_inv h
  | matmulNaiveT a b => exact matmul_naive_inv h
  | matmulT a b => exact matmul_inv h
  | sumT a axis => exact sum_inv h

/-- C6 witness: the invariant of a concrete matmul result, obtained through
the theorem. -/
theorem C6_op_result_invariant_witness : inv (⟨[F.inf], [1]⟩ : Tensor) :=
  C6_op_result_invariant (.matmulT ⟨[F.inf], [1]⟩ ⟨[F.inf], [1]⟩)
    ⟨[F.inf], [1]⟩ rfl

/-- C6 counterexample: clone is a public operation returning a Tensor, and
cloning the sentinel returns a tensor that violates the invariant, so the
claim as stated (excluding only empty()) is false. -/
theorem C6_clone_sentinel_counterexample : ¬ inv Tensor.empty.clone := by
  decide

/-! Claim C10 — behaviour of every operation on the empty() sentinel. -/

/-- C10: on the sentinel (shape [], data []), transpose, both matmuls (as
either operand) and every unary element-wise op return InvalidRank; the
binary element-wise ops return ShapeMismatch against any non-sentinel
operand and InvalidRank against another sentinel; sum succeeds with the
tensor [0.0] of shape [1] for axis None, Some 0 and Some 1. -/
theorem C10_empty_sentinel_ops (t : Tensor) (f : F → F) (g : F → F → F)
    (k : F) (p : ℕ) (h : t.shape ≠ []) :
    Tensor.empty.transpose = .error .InvalidRank ∧
    Tensor.empty.matmul t = .error .InvalidRank ∧
    t.matmul Tensor.empty = .error .InvalidRank ∧
    Tensor.empty.matmul_naive t = .error .InvalidRank ∧
    t.matmul_naive Tensor.empty = .error .InvalidRank ∧
    Tensor.empty._element_wise_op_single f = .error .InvalidRank ∧
    (Tensor.empty.abs = .error .InvalidRank ∧
     Tensor.empty.powf p = .error .InvalidRank ∧
     Tensor.empty.scale k = .error .InvalidRank ∧
     Tensor.empty.relu = .error .InvalidRank ∧
     Tensor.empty.relu_prime = .error .InvalidRank) ∧
    (Tensor.empty._element_wise_op t g = .error .ShapeMismatch ∧
     t._element_wise_op Tensor.empty g = .error .ShapeMismatch) ∧
    (Tensor.empty.add t = .error .ShapeMismatch ∧
     t.add Tensor.empty = .error .ShapeMismatch ∧
     Tensor.empty.sub t = .error .ShapeMismatch ∧
     t.sub Tensor.empty = .error .ShapeMismatch ∧
     Tensor.empty.mul t = .error .ShapeMismatch ∧
     t.mul Tensor.empty = .error .ShapeMismatch ∧
     Tensor.empty.div t = .error .ShapeMismatch ∧
     t.div Tensor.empty = .error .ShapeMismatch) ∧
    Tensor.empty._element_wise_op Tensor.empty g = .error .InvalidRank ∧
    (Tensor.empty.add Tensor.empty = .error .InvalidRank ∧
     Tensor.empty.sub Tensor.empty = .error .InvalidRank ∧
     Tensor.empty.mul Tensor.empty = .error .InvalidRank ∧
     Tensor.empty.div Tensor.empty = .error .InvalidRank) ∧
    (Tensor.empty.sum none = .ok ⟨[F.fin 0], [1]⟩ ∧
     Tensor.empty.sum (some 0) = .ok ⟨[F.fin 0], [1]⟩ ∧
     Tensor.empty.sum (some 1) = .ok ⟨[F.fin 0], [1]⟩) := by
  have hes : (Tensor.empty).shape = [] := rfl
  have hmm : ∀ op, Tensor.empty._element_wise_op t op = .error .ShapeMismatch :=
    fun op => _element_wise_op_mismatch op (by rw [hes]; exact fun he => h he.symm)
  have hmm2 : ∀ op, t._element_wise_op Tensor.empty op = .error .ShapeMismatch :=
    fun op => _element_wise_op_mismatch op (by rw [hes]; exact h)
  exact ⟨rfl, rfl, matmul_right_empty t, rfl, matmul_naive_right_empty t,
    rfl, ⟨rfl, rfl, rfl, rfl, rfl⟩,
    ⟨hmm g, hmm2 g⟩,
    ⟨hmm F.add, hmm2 F.add, hmm F.sub, hmm2 F.sub,
     hmm F.mul, hmm2 F.mul, hmm F.div, hmm2 F.div⟩,
    rfl, ⟨rfl, rfl, rfl, rfl⟩, ⟨rfl, rfl, rfl⟩⟩

/-- C10 witness: the sentinel behaviour against a concrete [1]-shaped
operand. -/
theorem C10_empty_sentinel_ops_witness :
    Tensor.empty.matmul ⟨[F.inf], [1]⟩ = .error .InvalidRank ∧
    (⟨[F.inf], [1]⟩ : Tensor).add Tensor.empty = .error .ShapeMismatch ∧
    Tensor.empty.sum none = .ok ⟨[F.fin 0], [1]⟩ := by
  obtain ⟨h1, h2, h3, h4, h5, h6, h7, h8, h9, h10, h11, h12⟩ :=
    C10_empty_sentinel_ops ⟨[F.inf], [1]⟩ F.abs F.add F.nan 2 (by decide)
  exact ⟨h2, h9.2.1, h12.1⟩

/-! Claim C7 — transpose is an involution. -/

theorem transpose_double_index {r c m : ℕ} (hm : m < r * c) :
    (((m % c) * r + m / c) % r) * c + ((m % c) * r + m / c) / r = m := by
  have hc : 0 < c := by
    rcases Nat.eq_zero_or_pos c with h | h
    · subst h; simp at hm
    · exact h
  have h1 : m / c < r := (Nat.div_lt_iff_lt_mul hc).mpr hm
  have h2 : ((m % c) * r + m / c) % r = m / c := by
    rw [mul_comm, Nat.mul_add_mod]
    exact Nat.mod_eq_of_lt h1
  have h3 : ((m % c) * r + m / c) / r = m % c := by
    rw [mul_comm, Nat.mul_add_div (by omega), Nat.div_eq_of_lt h1, add_zero]
  rw [h2, h3, mul_comm]
  exact Nat.div_add_mod m c

theorem transpose_transpose_data {d : List F} {r c : ℕ} (hlen : d.length = r * c) :
    (List.range (r * c)).map (fun m =>
      ((List.range (c * r)).map fun m2 =>
        d.getD ((m2 % r) * c + m2 / r) (F.fin 0)).getD
          ((m % c) * r + m / c) (F.fin 0)) = d := by
  apply List.ext_getElem
  · simp [hlen]
  · intro ii h1 h2
    simp only [List.getElem_map, List.getElem_range]
    have hii : ii < r * c := by simpa [hlen] using h2
    have hc : 0 < c := by
      rcases Nat.eq_zero_or_pos c with h | h
      · subst h; simp at hii
      · exact h
    have hdivlt : ii / c < r := (Nat.div_lt_iff_lt_mul hc).mpr hii
    have hidx : (ii % c) * r + ii / c < c * r := by
      calc (ii % c) * r + ii / c < (ii % c) * r + r := by omega
        _ = (ii % c + 1) * r := by ring
        _ ≤ c * r := Nat.mul_le_mul_right r (Nat.mod_lt ii hc)
    rw [List.getD_eq_getElem _ _ (by simpa using hidx)]
    simp only [List.getElem_map, List.getElem_range]
    rw [transpose_double_index hii]
    exact List.getD_eq_getElem d _ (by omega)

/-- C7: for every well-formed tensor x, transpose(transpose(x)) = x; on a
2-D tensor of shape [r, c] the transpose has shape [c, r] with
out[j*r+i] = in[i*c+j], and on a 1-D tensor transpose returns x itself. -/
theorem C7_transpose_involution (x : Tensor) (hx : inv x) :
    ∃ y, x.transpose = .ok y ∧ y.transpose = .ok x ∧
      (∀ n, x.shape = [n] → y = x) ∧
      (∀ r c, x.shape = [r, c] → y.shape = [c, r] ∧
        ∀ i j, i < r → j < c →
          y.data.getD (j * r + i) (F.fin 0) = x.data.getD (i * c + j) (F.fin 0)) := by
  obtain ⟨hlen, hdata⟩ := hx
  rcases hlen with h1 | h2
  · obtain ⟨n, hsh⟩ : ∃ n, x.shape = [n] := by
      match hh : x.shape with
      | [a] => exact ⟨a, rfl⟩
      | [] => rw [hh] at h1; simp at h1
      | _ :: _ :: _ => rw [hh] at h1; simp at h1
    have hd : x.data.length = n := by rw [hsh] at hdata; simpa using hdata
    have ht := transpose_ok1 hsh hd
    exact ⟨x, ht, ht, fun n2 h => rfl,
      fun r c hrc => absurd (hsh.symm.trans hrc) (by simp)⟩
  · obtain ⟨r, c, hsh⟩ : ∃ r c, x.shape = [r, c] := by
      match hh : x.shape with
      | [a, b] => exact ⟨a, b, rfl⟩
      | [] => rw [hh] at h2; simp at h2
      | [a] => rw [hh] at h2; simp at h2
      | _ :: _ :: _ :: _ => rw [hh] at h2; simp at h2
    have hd : x.data.length = r * c := by rw [hsh] at hdata; simpa using hdata
    have ht1 := transpose_ok2 hsh
    refine ⟨⟨(List.range (c * r)).map fun m =>
        x.data.getD ((m % r) * c + m / r) (F.fin 0), [c, r]⟩, ht1, ?_,
      fun n hn => absurd (hsh.symm.trans hn) (by simp), fun r2 c2 hrc => ?_⟩
    · have ht2 := transpose_ok2
        (t := ⟨(List.range (c * r)).map fun m =>
          x.data.getD ((m % r) * c + m / r) (F.fin 0), [c, r]⟩)
        (r := c) (c := r) rfl
      rw [ht2]
      have hdd := transpose_transpose_data (r := r) (c := c) hd
      have hx2 : (⟨x.data, [r, c]⟩ : Tensor) = x := by rw [← hsh]
      simp only at hdd ⊢
      rw [hdd, hx2]
    · obtain ⟨he1, he2⟩ : r = r2 ∧ c = c2 := by
        have h3 := hsh.symm.trans hrc
        simp at h3
        exact h3
      subst he1
      subst he2
      refine ⟨rfl, fun i j hi hj => ?_⟩
      have hidx : j * r + i < c * r := by
        calc j * r + i < (j + 1) * r := by rw [add_mul, one_mul]; omega
          _ ≤ c * r := Nat.mul_le_mul_right r (by omega)
      show ((List.range (c * r)).map fun m =>
        x.data.getD ((m % r) * c + m / r) (F.fin 0)).getD (j * r + i) (F.fin 0) = _
      rw [List.getD_eq_getElem _ _ (by simpa using hidx)]
      simp only [List.getElem_map, List.getElem_range]
      have e1 : (j * r + i) % r = i := by
        rw [mul_comm, Nat.mul_add_mod]
        exact Nat.mod_eq_of_lt hi
      have e2 : (j * r + i) / r = j := by
        rw [mul_comm, Nat.mul_add_div (by omega), Nat.div_eq_of_lt hi, add_zero]
      rw [e1, e2]

/-- C7 witness: the involution at a concrete 2 by 2 tensor of special
values. -/
theorem C7_transpose_involution_witness :
    ∃ y, (⟨[F.inf, F.nan, F.ninf, F.fin 0], [2, 2]⟩ : Tensor).transpose = .ok y ∧
      y.transpose = .ok ⟨[F.inf, F.nan, F.ninf, F.fin 0], [2, 2]⟩ :=
  match C7_transpose_involution ⟨[F.inf, F.nan, F.ninf, F.fin 0], [2, 2]⟩
    (by decide) with
  | ⟨y, h1, h2, _, _⟩ => ⟨y, h1, h2⟩

/-! Folding the sum loop from 0.0 equals the list sum of the model. -/

theorem foldl_add_zero (l : List F) : l.foldl F.add (F.fin 0) = l.sum := by
  rw [foldl_add_eq_sum]
  exact zero_add l.sum

/-! Claim C3 — the mse_loss_gradient formula. -/

/-- C3: for equal-shaped well-formed tensors, mse_loss_gradient returns
(predicted - actual) scaled by 2 divided by predicted.shape[0] (the first
shape dimension); the last two conjuncts exhibit that for a [2, 2] tensor
that divisor (2) differs from the total element count (4) used by
mse_loss. -/
theorem C3_mse_loss_gradient_formula (p a : Tensor) (hp : inv p) (ha : inv a)
    (hsh : p.shape = a.shape) :
    (mse_loss_gradient p a =
      .ok ⟨List.zipWith
            (fun x y => (x.sub y).mul
              ((F.fin 2).div (F.fin ((p.shape.headD 0 : ℕ) : ℚ))))
            p.data a.data,
          p.shape⟩) ∧
    (⟨[F.fin 1, F.fin 1, F.fin 1, F.fin 1], [2, 2]⟩ : Tensor).shape.headD 0 = 2 ∧
    (⟨[F.fin 1, F.fin 1, F.fin 1, F.fin 1], [2, 2]⟩ : Tensor).shape.prod = 4 := by
  refine ⟨?_, rfl, rfl⟩
  have hsub : p.sub a = .ok ⟨List.zipWith F.sub p.data a.data, p.shape⟩ :=
    _element_wise_op_ok F.sub hsh hp ha
  have hinv : inv (⟨List.zipWith F.sub p.data a.data, p.shape⟩ : Tensor) :=
    _element_wise_op_inv hsub
  have hscale := _element_wise_op_single_ok
    (a := ⟨List.zipWith F.sub p.data a.data, p.shape⟩)
    (fun x => x.mul ((F.fin 2).div (F.fin ((p.shape.headD 0 : ℕ) : ℚ)))) hinv
  unfold mse_loss_gradient
  rw [hsub]
  simp only [except_bind_ok]
  show Tensor._element_wise_op_single _ _ = _
  rw [hscale]
  rw [List.map_zipWith]

/-- C3 witness: the formula at a concrete [2, 2] input, where the divisor is
the leading dimension 2 rather than the element count 4. -/
theorem C3_mse_loss_gradient_formula_witness :
    (mse_loss_gradient ⟨[F.inf, F.inf, F.inf, F.inf], [2, 2]⟩
        ⟨[F.ninf, F.ninf, F.ninf, F.ninf], [2, 2]⟩ =
      .ok ⟨List.zipWith
            (fun x y => (x.sub y).mul
              ((F.fin 2).div
                (F.fin (((⟨[F.inf, F.inf, F.inf, F.inf], [2, 2]⟩ :
                  Tensor).shape.headD 0 : ℕ) : ℚ))))
            [F.inf, F.inf, F.inf, F.inf] [F.ninf, F.ninf, F.ninf, F.ninf],
          [2, 2]⟩) ∧
    (⟨[F.fin 1, F.fin 1, F.fin 1, F.fin 1], [2, 2]⟩ : Tensor).shape.headD 0 = 2 ∧
    (⟨[F.fin 1, F.fin 1, F.fin 1, F.fin 1], [2, 2]⟩ : Tensor).shape.prod = 4 :=
  C3_mse_loss_gradient_formula ⟨[F.inf, F.inf, F.inf, F.inf], [2, 2]⟩
    ⟨[F.ninf, F.ninf, F.ninf, F.ninf], [2, 2]⟩ (by decide) (by decide) rfl

/-! Claim C2 — the Linear backward pass. -/

theorem matmul_ok2 {x y : Tensor} {m n p : ℕ}
    (hx : x.shape = [m, n]) (hy : y.shape = [n, p]) :
    x.matmul y = .ok ⟨(List.range (m * p)).map fun mm =>
      matDotSkip x.data y.data n p (mm / p) (mm % p), [m, p]⟩ := by
  have hL : promoteLeft x.shape = .ok (m, n) := by rw [hx]; rfl
  have hR : promoteRight y.shape = .ok (n, p) := by rw [hy]; rfl
  rw [matmul_ok hL hR rfl]
  have hsh : outShape x.shape.length y.shape.length m p = [m, p] := by
    rw [hx, hy]; rfl
  rw [hsh]

theorem scale_ok {t : Tensor} (k : F) (ht : inv t) :
    t.scale k = .ok ⟨t.data.map (fun x => x.mul k), t.shape⟩ :=
  _element_wise_op_single_ok _ ht

theorem sub_ok {x y : Tensor} (hsh : x.shape = y.shape)
    (hx : inv x) (hy : inv y) :
    x.sub y = .ok ⟨List.zipWith F.sub x.data y.data, x.shape⟩ :=
  _element_wise_op_ok F.sub hsh hx hy

/-- C2: for a Linear layer with weight [nIn, nOut] and cached input
[b, nIn], and an output error of shape [b, nOut], backward succeeds and
returns input_error = output_error x weight-transposed (of shape [b, nIn]),
computed from the pre-update weight, while the weight is replaced by
weight - lr * (input-transposed x output_error) and the cached input is
unchanged.  The positivity hypotheses on b and nOut confine the statement
to the region where the two matmuls inside backward do not panic in
chunks_exact(0): their promoted inner dimensions are nOut and b. -/
theorem C2_linear_backward_spec (b nIn nOut : ℕ) (l : Linear) (oe : Tensor)
    (lr : F) (hb : 0 < b) (hno : 0 < nOut)
    (hw : l.weight.shape = [nIn, nOut]) (hwi : inv l.weight)
    (hx : l.input.shape = [b, nIn]) (hxi : inv l.input)
    (ho : oe.shape = [b, nOut]) (hoi : inv oe) :
    ∃ wt ie it wg ws w2,
      l.weight.transpose = .ok wt ∧
      oe.matmul wt = .ok ie ∧
      l.input.transpose = .ok it ∧
      it.matmul oe = .ok wg ∧
      wg.scale lr = .ok ws ∧
      l.weight.sub ws = .ok w2 ∧
      l.backward oe lr = .ok (ie, ⟨w2, l.input⟩) ∧
      ie.shape = [b, nIn] ∧ wg.shape = [nIn, nOut] ∧ w2.shape = [nIn, nOut] := by
  have hwt := transpose_ok2 hw
  have hie := matmul_ok2 (x := oe)
    (y := ⟨(List.range (nOut * nIn)).map fun m =>
      l.weight.data.getD ((m % nIn) * nOut + m / nIn) (F.fin 0), [nOut, nIn]⟩)
    ho rfl
  have hit := transpose_ok2 hx
  have hwg := matmul_ok2
    (x := ⟨(List.range (nIn * b)).map fun m =>
      l.input.data.getD ((m % b) * nIn + m / b) (F.fin 0), [nIn, b]⟩)
    (y := oe) rfl ho
  have hwginv := matmul_inv hwg
  have hws := scale_ok lr hwginv
  have hwsinv := _element_wise_op_single_inv hws
  have hsub := sub_ok (x := l.weight) (by rw [hw]) hwi hwsinv
  refine ⟨_, _, _, _, _, _, hwt, hie, hit, hwg, hws, hsub, ?_, rfl, rfl, ?_⟩
  · unfold Linear.backward
    rw [hwt]
    simp only [except_bind_ok]
    rw [hie]
    simp only [except_bind_ok]
    rw [hit]
    simp only [except_bind_ok]
    rw [hwg]
    simp only [except_bind_ok]
    rw [hws]
    simp only [except_bind_ok]
    rw [hsub]
    simp only [except_bind_ok]
    rfl
  · exact hw

/-- C2 witness: the backward contract at a concrete 1 by 1 layer built from
special values. -/
theorem C2_linear_backward_spec_witness :
    ∃ wt ie it wg ws w2,
      (⟨[F.inf], [1, 1]⟩ : Tensor).transpose = .ok wt ∧
      (⟨[F.inf], [1, 1]⟩ : Tensor).matmul wt = .ok ie ∧
      (⟨[F.ninf], [1, 1]⟩ : Tensor).transpose = .ok it ∧
      it.matmul ⟨[F.inf], [1, 1]⟩ = .ok wg ∧
      wg.scale F.nan = .ok ws ∧
      (⟨[F.inf], [1, 1]⟩ : Tensor).sub ws = .ok w2 ∧
      (Linear.mk ⟨[F.inf], [1, 1]⟩ ⟨[F.ninf], [1, 1]⟩).backward
        ⟨[F.inf], [1, 1]⟩ F.nan = .ok (ie, ⟨w2, ⟨[F.ninf], [1, 1]⟩⟩) ∧
      ie.shape = [1, 1] ∧ wg.shape = [1, 1] ∧ w2.shape = [1, 1] :=
  C2_linear_backward_spec 1 1 1
    (Linear.mk ⟨[F.inf], [1, 1]⟩ ⟨[F.ninf], [1, 1]⟩) ⟨[F.inf], [1, 1]⟩ F.nan
    (by decide) (by decide) rfl (by decide) rfl (by decide) rfl (by decide)

/-! Claim C1 — matmul versus matmul_naive. -/

theorem foldSkip_eq {A B : List F} (hA : ∀ x ∈ A, x.isFinite = true)
    (hB : ∀ x ∈ B, x.isFinite = true) (aCols bCols i j : ℕ)
    (ks : List ℕ) :
    ∀ acc : F, acc.isFinite = true →
      ks.foldl (fun acc k =>
        if (A.getD (i * aCols + k) (F.fin 0)).beqZero then acc
        else acc.add ((A.getD (i * aCols + k) (F.fin 0)).mul
          (B.getD (k * bCols + j) (F.fin 0)))) acc =
      ks.foldl (fun acc k =>
        acc.add ((A.getD (i * aCols + k) (F.fin 0)).mul
          (B.getD (k * bCols + j) (F.fin 0)))) acc := by
  induction ks with
  | nil => exact fun acc _ => rfl
  | cons k ks ih =>
      intro acc hacc
      rw [List.foldl_cons, List.foldl_cons]
      by_cases hz : (A.getD (i * aCols + k) (F.fin 0)).beqZero = true
      · rw [if_pos hz, F.beqZero_eq_true hz,
          F.zero_mul' (getD_isFinite hB (k * bCols + j)), F.add_zero']
        exact ih acc hacc
      · rw [if_neg hz]
        exact ih _ (F.isFinite_add hacc
          (F.isFinite_mul (getD_isFinite hA (i * aCols + k))
            (getD_isFinite hB (k * bCols + j))))

theorem matDotSkip_eq {A B : List F} (hA : ∀ x ∈ A, x.isFinite = true)
    (hB : ∀ x ∈ B, x.isFinite = true) (aCols bCols i j : ℕ) :
    matDotSkip A B aCols bCols i j = matDot A B aCols bCols i j :=
  foldSkip_eq hA hB aCols bCols i j (List.range aCols) (F.fin 0) rfl

/-- C1 (amended): for valid matmul operands all of whose elements are finite
and whose promoted inner dimension is positive, matmul and matmul_naive
return the same result — identical data and identical shape.  (The
positivity hypothesis marks the region where the Rust matmul does not panic
in chunks_exact; the skip of a[i][k] == 0.0 is unobservable because
0 * x = 0 and acc + 0 = acc for finite x and acc.) -/
theorem C1_matmul_equiv_on_finite (a b : Tensor) {ar ac br bc : ℕ}
    (hL : promoteLeft a.shape = .ok (ar, ac))
    (hR : promoteRight b.shape = .ok (br, bc))
    (hin : ac = br) (hpos : 0 < ac)
    (hA : ∀ x ∈ a.data, x.isFinite = true)
    (hB : ∀ x ∈ b.data, x.isFinite = true) :
    ∃ t, a.matmul b = .ok t ∧ a.matmul_naive b = .ok t := by
  have hfe : (fun m => matDotSkip a.data b.data ac bc (m / bc) (m % bc)) =
      (fun m => matDot a.data b.data ac bc (m / bc) (m % bc)) :=
    funext fun m => matDotSkip_eq hA hB ac bc (m / bc) (m % bc)
  refine ⟨_, ?_, matmul_naive_ok hL hR hin⟩
  rw [matmul_ok hL hR hin, hfe]

/-- C1 witness: the equivalence at concrete finite rank-1 operands. -/
theorem C1_matmul_equiv_on_finite_witness :
    ∃ t, (⟨[F.fin 1, F.fin 0], [2]⟩ : Tensor).matmul
        ⟨[F.fin 3, F.fin 4], [2]⟩ = .ok t ∧
      (⟨[F.fin 1, F.fin 0], [2]⟩ : Tensor).matmul_naive
        ⟨[F.fin 3, F.fin 4], [2]⟩ = .ok t :=
  C1_matmul_equiv_on_finite ⟨[F.fin 1, F.fin 0], [2]⟩ ⟨[F.fin 3, F.fin 4], [2]⟩
    rfl rfl rfl (by decide) (by decide) (by decide)

/-- C1 counterexample: [0.0] and [inf] are valid rank-1 matmul operands with
agreeing inner dimensions, yet matmul_naive returns [NaN] (0 * inf = NaN)
while matmul returns [0.0] (the zero row is skipped), so the results are not
bit-identical on all valid inputs. -/
theorem C1_zero_skip_counterexample :
    promoteLeft (⟨[F.fin 0], [1]⟩ : Tensor).shape = .ok (1, 1) ∧
    promoteRight (⟨[F.inf], [1]⟩ : Tensor).shape = .ok (1, 1) ∧
    (⟨[F.fin 0], [1]⟩ : Tensor).matmul_naive ⟨[F.inf], [1]⟩ =
      .ok ⟨[F.nan], [1]⟩ ∧
    (⟨[F.fin 0], [1]⟩ : Tensor).matmul ⟨[F.inf], [1]⟩ =
      .ok ⟨[F.fin 0], [1]⟩ ∧
    (F.nan : F) ≠ F.fin 0 :=
  ⟨rfl, rfl, rfl, rfl, by decide⟩

/-! Claim C9 — loss of a tensor against itself. -/

theorem map_sub_self {l : List F} (h : ∀ x ∈ l, x.isFinite = true) :
    l.map (fun a => a.sub a) = List.replicate l.length (F.fin 0) := by
  induction l with
  | nil => rfl
  | cons x xs ih =>
      have hx := h x (by simp)
      obtain ⟨q, rfl⟩ : ∃ q, x = F.fin q := by
        cases x
        · exact ⟨_, rfl⟩
        · exact absurd hx (by simp [F.isFinite])
        · exact absurd hx (by simp [F.isFinite])
        · exact absurd hx (by simp [F.isFinite])
      rw [List.map_cons, ih (fun y hy => h y (List.mem_cons_of_mem _ hy)),
        List.length_cons, List.replicate_succ]
      congr 1
      show F.fin (q - q) = F.fin 0
      norm_num

theorem powf_zero_two : (F.fin 0).powf 2 = F.fin 0 := by
  show F.fin ((0 : ℚ) ^ 2) = F.fin 0
  norm_num

theorem abs_zero_f : (F.fin 0).abs = F.fin 0 := by
  show F.fin |(0 : ℚ)| = F.fin 0
  norm_num

theorem sum_none_replicate_zero (n : ℕ) (sh : List ℕ) :
    (⟨List.replicate n (F.fin 0), sh⟩ : Tensor).sum none = .ok ⟨[F.fin 0], [1]⟩ := by
  show Tensor.new [(List.replicate n (F.fin 0)).foldl F.add (F.fin 0)] [1] = _
  rw [foldl_add_zero, List.sum_replicate]
  have hs : n • (F.fin 0) = F.fin 0 := by
    rw [show (F.fin 0 : F) = 0 from rfl]
    simp
  rw [hs]
  exact new_ok_of (Or.inl rfl) (by simp)

theorem scale_zero_tensor {k : F} (hk : k.isFinite = true) :
    (⟨[F.fin 0], [1]⟩ : Tensor).scale k = .ok ⟨[F.fin 0], [1]⟩ := by
  rw [scale_ok k (by decide)]
  show (Except.ok ⟨[(F.fin 0).mul k], [1]⟩ : Except TensorError Tensor) = _
  rw [F.zero_mul' hk]

/-- C9 (amended): for every well-formed tensor x all of whose elements are
finite and whose element count is positive, mse_loss(x, x) and l1_loss(x, x)
both return the scalar tensor [0.0].  (With a NaN or inf element the
difference x - x is NaN, and with a zero dimension the final scaling is
0 * (1/0) = NaN, so the restriction is necessary.) -/
theorem C9_loss_self_zero_finite (x : Tensor) (hx : inv x)
    (hfin : ∀ v ∈ x.data, v.isFinite = true) (hpos : 0 < x.shape.prod) :
    mse_loss x x = .ok ⟨[F.fin 0], [1]⟩ ∧ l1_loss x x = .ok ⟨[F.fin 0], [1]⟩ := by
  have hsub : x.sub x = .ok ⟨List.replicate x.data.length (F.fin 0), x.shape⟩ := by
    rw [sub_ok rfl hx hx, List.zipWith_same, map_sub_self hfin]
  have hdinv : inv (⟨List.replicate x.data.length (F.fin 0), x.shape⟩ : Tensor) :=
    ⟨hx.1, by simpa using hx.2⟩
  have hn : ((x.shape.prod : ℕ) : ℚ) ≠ 0 := Nat.cast_ne_zero.mpr (by omega)
  have hk : ((F.fin 1).div (F.fin ((x.shape.prod : ℕ) : ℚ))).isFinite = true := by
    have hdiv : (F.fin 1).div (F.fin ((x.shape.prod : ℕ) : ℚ)) =
        F.fin (1 / ((x.shape.prod : ℕ) : ℚ)) := by
      show (if ((x.shape.prod : ℕ) : ℚ) = 0 then _ else F.fin (1 / _)) = _
      rw [if_neg hn]
    rw [hdiv]
    rfl
  constructor
  · have hpow : (⟨List.replicate x.data.length (F.fin 0), x.shape⟩ : Tensor).powf 2 =
        .ok ⟨List.replicate x.data.length (F.fin 0), x.shape⟩ := by
      rw [show (⟨List.replicate x.data.length (F.fin 0), x.shape⟩ : Tensor).powf 2 =
        Tensor._element_wise_op_single
          ⟨List.replicate x.data.length (F.fin 0), x.shape⟩
          (fun v => v.powf 2) from rfl]
      rw [_element_wise_op_single_ok _ hdinv]
      show (Except.ok ⟨(List.replicate x.data.length (F.fin 0)).map _, x.shape⟩ :
        Except TensorError Tensor) = _
      rw [List.map_replicate, powf_zero_two]
    unfold mse_loss
    rw [if_neg (by simp)]
    rw [hsub]
    simp only [except_bind_ok]
    rw [hpow]
    simp only [except_bind_ok]
    rw [sum_none_replicate_zero]
    simp only [except_bind_ok]
    exact scale_zero_tensor hk
  · have habs : (⟨List.replicate x.data.length (F.fin 0), x.shape⟩ : Tensor).abs =
        .ok ⟨List.replicate x.data.length (F.fin 0), x.shape⟩ := by
      rw [show (⟨List.replicate x.data.length (F.fin 0), x.shape⟩ : Tensor).abs =
        Tensor._element_wise_op_single
          ⟨List.replicate x.data.length (F.fin 0), x.shape⟩ F.abs from rfl]
      rw [_element_wise_op_single_ok _ hdinv]
      show (Except.ok ⟨(List.replicate x.data.length (F.fin 0)).map _, x.shape⟩ :
        Except TensorError Tensor) = _
      rw [List.map_replicate, abs_zero_f]
    unfold l1_loss
    rw [if_neg (by simp)]
    rw [hsub]
    simp only [except_bind_ok]
    rw [habs]
    simp only [except_bind_ok]
    rw [sum_none_replicate_zero]
    simp only [except_bind_ok]
    exact scale_zero_tensor hk

/-- C9 witness: the zero losses at a concrete finite tensor. -/
theorem C9_loss_self_zero_finite_witness :
    mse_loss ⟨[F.fin 1], [1]⟩ ⟨[F.fin 1], [1]⟩ = .ok ⟨[F.fin 0], [1]⟩ ∧
    l1_loss ⟨[F.fin 1], [1]⟩ ⟨[F.fin 1], [1]⟩ = .ok ⟨[F.fin 0], [1]⟩ :=
  C9_loss_self_zero_finite ⟨[F.fin 1], [1]⟩ (by decide) (by decide) (by decide)

/-- C9 counterexample: for the valid tensor [NaN] (a tensor containing a NaN
element, explicitly covered by the claim), mse_loss(x, x) and l1_loss(x, x)
return [NaN], not the scalar tensor 0. -/
theorem C9_loss_nan_counterexample :
    inv (⟨[F.nan], [1]⟩ : Tensor) ∧
    mse_loss ⟨[F.nan], [1]⟩ ⟨[F.nan], [1]⟩ = .ok ⟨[F.nan], [1]⟩ ∧
    l1_loss ⟨[F.nan], [1]⟩ ⟨[F.nan], [1]⟩ = .ok ⟨[F.nan], [1]⟩ ∧
    (F.nan : F) ≠ F.fin 0 :=
  ⟨by decide, rfl, rfl, by decide⟩

end NN
